import Mathlib

set_option maxHeartbeats 1000000
set_option maxRecDepth 4000

/-!
Verification of the hybrid memory store core of
`cloudflare-memory-mcp-server-fixed` (class `MyMCP` in the worker source:
`addMemory`, `searchMemories`, `createMemoryRelationship`, `switchProject`,
together with the SQLite tables `memories`, `memory_relationships` and
`user_sessions` and the Vectorize index entries).

The embedding models:
* JSON values and the `JSON.stringify` / `JSON.parse` pair used for the
  `metadata` column (numbers are modelled as integers; the serializer
  emits no whitespace, so the parser does not skip any; control
  characters other than the usual named escapes are left unescaped);
* the durable-object SQL state as lists of rows in table order;
* the Vectorize index as a list of entries keyed by id;
* the external collaborators (Workers AI embedding, Vectorize upsert) as
  explicit success/failure outcomes passed to each operation, mirroring
  the single `try`/`catch` of each handler.
-/

/-- JSON values, as stored in the `metadata` column and in the vector
index attributes. -/
inductive Json where
  | null : Json
  | bool : Bool → Json
  | num : Int → Json
  | str : String → Json
  | arr : List Json → Json
  | obj : List (String × Json) → Json

/-- The escape sequence `JSON.stringify` emits for one character. -/
def escapeChar (c : Char) : List Char :=
  if c = '"' then ['\\', '"']
  else if c = '\\' then ['\\', '\\']
  else if c = '\n' then ['\\', 'n']
  else if c = '\t' then ['\\', 't']
  else if c = '\r' then ['\\', 'r']
  else [c]

/-- Escape a whole character list. -/
def escChars : List Char → List Char
  | [] => []
  | c :: cs => escapeChar c ++ escChars cs

/-- The decimal digit character for `d < 10`. -/
def digitChar (d : Nat) : Char := Char.ofNat (48 + d)

/-- Decimal digits of a natural number, most significant first. -/
def natDigits (n : Nat) : List Char :=
  if h : n < 10 then [digitChar n]
  else natDigits (n / 10) ++ [digitChar (n % 10)]
termination_by n
decreasing_by exact Nat.div_lt_self (by omega) (by omega)

/-- Decimal representation of an integer. -/
def intChars (i : Int) : List Char :=
  if i < 0 then '-' :: natDigits i.natAbs else natDigits i.natAbs

mutual
/-- `JSON.stringify`, producing the character list of the serialized
form. -/
def jsonChars : Json → List Char
  | .bool b => if b then "true".toList else "false".toList
  | .null => "null".toList
  | .num i => intChars i
  | .str s => '"' :: (escChars s.toList ++ ['"'])
  | .arr xs => '[' :: (arrChars xs ++ [']'])
  | .obj kvs => '\x7b' :: (objChars kvs ++ ['\x7d'])

/-- Comma-separated serialization of array elements. -/
def arrChars : List Json → List Char
  | [] => []
  | [x] => jsonChars x
  | x :: y :: ys => jsonChars x ++ (',' :: arrChars (y :: ys))

/-- Comma-separated serialization of object members. -/
def objChars : List (String × Json) → List Char
  | [] => []
  | [(k, v)] => '"' :: (escChars k.toList ++ ('"' :: ':' :: jsonChars v))
  | (k, v) :: m :: ms =>
      ('"' :: (escChars k.toList ++ ('"' :: ':' :: jsonChars v)))
        ++ (',' :: objChars (m :: ms))
end

/-- Inverse of `escapeChar` on the character following a backslash. -/
def unescapeChar (c : Char) : Option Char :=
  if c = '"' then some '"'
  else if c = '\\' then some '\\'
  else if c = 'n' then some '\n'
  else if c = 't' then some '\t'
  else if c = 'r' then some '\r'
  else none

/-- Parse a JSON string body up to and including the closing quote,
returning the unescaped characters and the remainder. -/
def parseStr : List Char → Option (List Char × List Char)
  | [] => none
  | c :: cs =>
    if c = '"' then some ([], cs)
    else if c = '\\' then
      match cs with
      | [] => none
      | e :: cs' =>
        match unescapeChar e, parseStr cs' with
        | some u, some (s, r) => some (u :: s, r)
        | _, _ => none
    else
      match parseStr cs with
      | some (s, r) => some (c :: s, r)
      | none => none

/-- Split off the longest prefix of decimal digits. -/
def takeDigits : List Char → List Char × List Char
  | [] => ([], [])
  | c :: cs =>
    if c.isDigit then
      let p := takeDigits cs
      (c :: p.1, p.2)
    else ([], c :: cs)

/-- Numeric value of a digit list, most significant first. -/
def digitsToNat (ds : List Char) : Nat :=
  ds.foldl (fun acc c => acc * 10 + (c.toNat - 48)) 0

/-- Parse an integer literal. -/
def parseNum : List Char → Option (Int × List Char)
  | [] => none
  | c :: cs =>
    if c = '-' then
      match takeDigits cs with
      | ([], _) => none
      | (d :: ds, r) => some (-(digitsToNat (d :: ds) : Int), r)
    else
      match takeDigits (c :: cs) with
      | ([], _) => none
      | (d :: ds, r) => some ((digitsToNat (d :: ds) : Int), r)

mutual
/-- `JSON.parse`, fuel-indexed recursive-descent parser.  The fuel
bounds the nesting of recursive parses; `jsonParse` below supplies
enough fuel for any input of the given length. -/
def parseVal : Nat → List Char → Option (Json × List Char)
  | 0, _ => none
  | fuel + 1, cs =>
    match cs with
    | [] => none
    | c :: rest =>
      if c = 'n' then
        match rest with
        | 'u' :: 'l' :: 'l' :: r => some (.null, r)
        | _ => none
      else if c = 't' then
        match rest with
        | 'r' :: 'u' :: 'e' :: r => some (.bool true, r)
        | _ => none
      else if c = 'f' then
        match rest with
        | 'a' :: 'l' :: 's' :: 'e' :: r => some (.bool false, r)
        | _ => none
      else if c = '"' then
        match parseStr rest with
        | some (s, r) => some (.str (String.mk s), r)
        | none => none
      else if c = '[' then
        match parseElems fuel rest with
        | some (vs, r) => some (.arr vs, r)
        | none => none
      else if c = '\x7b' then
        match parseMembers fuel rest with
        | some (ms, r) => some (.obj ms, r)
        | none => none
      else
        match parseNum (c :: rest) with
        | some (i, r) => some (.num i, r)
        | none => none

/-- Parse array elements including the closing bracket. -/
def parseElems : Nat → List Char → Option (List Json × List Char)
  | 0, _ => none
  | fuel + 1, cs =>
    match cs with
    | [] => none
    | c :: cs' =>
      if c = ']' then some ([], cs')
      else
        match parseVal fuel (c :: cs') with
        | some (v, ',' :: r) =>
          match parseElems fuel r with
          | some (vs, r') => some (v :: vs, r')
          | none => none
        | some (v, ']' :: r) => some ([v], r)
        | _ => none

/-- Parse object members including the closing brace. -/
def parseMembers : Nat → List Char → Option (List (String × Json) × List Char)
  | 0, _ => none
  | fuel + 1, cs =>
    match cs with
    | [] => none
    | c :: cs' =>
      if c = '\x7d' then some ([], cs')
      else if c = '"' then
        match parseStr cs' with
        | some (k, ':' :: r) =>
          match parseVal fuel r with
          | some (v, ',' :: r') =>
            match parseMembers fuel r' with
            | some (ms, r'') => some ((String.mk k, v) :: ms, r'')
            | none => none
          | some (v, '\x7d' :: r') => some ([(String.mk k, v)], r')
          | _ => none
        | _ => none
      else none
end

mutual
/-- Fuel sufficient for `parseVal` on the serialization of a value. -/
def needV : Json → Nat
  | .arr xs => 1 + needE xs
  | .obj kvs => 1 + needM kvs
  | _ => 1

/-- Fuel sufficient for `parseElems` on serialized elements. -/
def needE : List Json → Nat
  | [] => 1
  | x :: xs => 1 + max (needV x) (needE xs)

/-- Fuel sufficient for `parseMembers` on serialized members. -/
def needM : List (String × Json) → Nat
  | [] => 1
  | (_, v) :: ms => 1 + max (needV v) (needM ms)
end

/-- `JSON.stringify` at the `String` level. -/
def jsonStringify (j : Json) : String := String.mk (jsonChars j)

/-- `JSON.parse` at the `String` level; `none` models a thrown
`SyntaxError`. -/
def jsonParse (s : String) : Option Json :=
  match parseVal (s.length + 1) s.toList with
  | some (j, []) => some j
  | _ => none

/-- The remainder after a serialized number must not begin with a
digit, so that the digit scan stops in the right place. -/
def headNotDigit (cs : List Char) : Prop :=
  ∀ c, cs.head? = some c → c.isDigit = false

/-! ### Data model: the durable-object SQL state and the vector index -/

/-- `getUserId()`: fixed owner identifier in the source. -/
def getUserId : String := "mem0-mcp-user"

/-- A row of the `memories` table. -/
structure MemoryRow where
  id : String
  user_id : String
  content : String
  embedding_id : String
  project : String
  memory_type : String
  metadata : String
  created_at : Nat
  updated_at : Nat
  accessed_at : Nat

/-- A row of the `memory_relationships` table. -/
structure RelationshipRow where
  id : String
  from_memory_id : String
  to_memory_id : String
  relationship_type : String
  strength : ℚ
  created_at : Nat

/-- A row of the `user_sessions` table. -/
structure SessionRow where
  user_id : String
  current_project : String
  last_active : Nat

/-- The SQLite state of one durable object, each table in row order. -/
structure DB where
  memories : List MemoryRow
  memory_relationships : List RelationshipRow
  user_sessions : List SessionRow

/-- A Vectorize index entry. -/
structure VectorEntry where
  id : String
  values : List Int
  metadata : List (String × Json)

/-! ### JS object helpers (assoc lists with later keys overriding) -/

/-- Property lookup on a JS object modelled as an assoc list. -/
def getKey (kvs : List (String × Json)) (k : String) : Option Json :=
  (kvs.find? (fun p => p.1 == k)).map (fun p => p.2)

/-- Property assignment: overwrite the entry with this key in place,
else append (JS object keys are unique). -/
def setKey : List (String × Json) → String → Json → List (String × Json)
  | [], k, v => [(k, v)]
  | p :: ps, k, v => if p.1 == k then (k, v) :: ps else p :: setKey ps k v

/-- Spread `ext` over `base`, as in the object literal
`\x7b ...base fields..., ...ext \x7d`: each key of `ext` overrides. -/
def objExtend (base ext : List (String × Json)) : List (String × Json) :=
  ext.foldl (fun acc p => setKey acc p.1 p.2) base

/-! ### addMemory -/

/-- Arguments of the `add-memory` tool (after transport parsing);
`none` models an absent (`undefined`) optional argument. -/
structure AddArgs where
  content : String
  project : Option String
  type : Option String
  metadata : Option (List (String × Json))

/-- Outcomes of the external calls made by `addMemory`: the Workers AI
embedding call, the SQL INSERT, and the Vectorize upsert; a `false`
means the call throws with the given message. -/
structure ExtCalls where
  embedOk : Bool
  embedErr : String
  embedVec : List Int
  insertOk : Bool
  insertErr : String
  upsertOk : Bool
  upsertErr : String

/-- The attributes of the vector index entry built in `addMemory`: the
object literal with the canonical fields followed by the spread of the
caller-supplied metadata, whose keys override earlier ones. -/
def addMemoryAttrs (memoryId userId content project type : String)
    (now : Nat) (metadata : List (String × Json)) : List (String × Json) :=
  objExtend
    [("memoryId", Json.str memoryId),
     ("userId", Json.str userId),
     ("content", Json.str (content.take 1000)),
     ("project", Json.str project),
     ("type", Json.str type),
     ("timestamp", Json.num (now : Int))]
    metadata

/-- `VECTORIZE.upsert`: replace the entry with the same id, else
append. -/
def upsertVec (vdb : List VectorEntry) (e : VectorEntry) :
    List VectorEntry :=
  if vdb.any (fun x => x.id == e.id) then
    vdb.map (fun x => if x.id == e.id then e else x)
  else vdb ++ [e]

/-- The catch-branch response text of `addMemory`. -/
def errStoreText (msg : String) : String :=
  "❌ Error storing memory: " ++ msg

/-- The success response text of `addMemory`. -/
def okStoreText (memoryId project type content : String) : String :=
  "✅ Memory stored successfully!\n\n**ID**: " ++ memoryId ++
    "\n**Project**: " ++ project ++ "\n**Type**: " ++ type ++
    "\n**Content**: " ++ content.take 200 ++
    (if content.length > 200 then "..." else "")

/-- `addMemory`: destructure with defaults, generate the embedding,
INSERT the row, upsert the vector entry; one `try`/`catch` wraps all
three steps, so any failure returns the same error response shape.  The
fresh `crypto.randomUUID()` and `CURRENT_TIMESTAMP` are passed in as
`memoryId` and `now`.  Returns the new SQL state, the new index state
and the response text. -/
def addMemory (db : DB) (vdb : List VectorEntry) (args : AddArgs)
    (memoryId : String) (now : Nat) (ext : ExtCalls) :
    DB × List VectorEntry × String :=
  let content := args.content
  let project := args.project.getD "default"
  let type := args.type.getD "general"
  let metadata := args.metadata.getD []
  let embeddingId := "memory-" ++ memoryId
  let userId := getUserId
  if ext.embedOk then
    if ext.insertOk then
      let row : MemoryRow := ⟨memoryId, userId, content, embeddingId,
        project, type, jsonStringify (Json.obj metadata), now, now, now⟩
      let db' : DB := ⟨db.memories ++ [row], db.memory_relationships,
        db.user_sessions⟩
      if ext.upsertOk then
        let entry : VectorEntry := ⟨embeddingId, ext.embedVec,
          addMemoryAttrs memoryId userId content project type now metadata⟩
        (db', upsertVec vdb entry, okStoreText memoryId project type content)
      else (db', vdb, errStoreText ext.upsertErr)
    else (db, vdb, errStoreText ext.insertErr)
  else (db, vdb, errStoreText ext.embedErr)

/-- The spec's view of a stored memory record, with the metadata
deserialized. -/
structure Memory where
  id : String
  owner : String
  content : String
  project : String
  type : String
  metadata : Json
  created_at : Nat

/-- Modelled from the spec: `getMemory(id) → Memory | NotFound` (§4.1).
The repository exposes no standalone getMemory; per the spec it reads
the `memories` row by primary key and deserializes the metadata JSON
(the search path reads the same column with
`JSON.parse(row.metadata || '\x7b\x7d')`). -/
def getMemory (db : DB) (id : String) : Option Memory :=
  (db.memories.find? (fun r => r.id == id)).map (fun r =>
    ⟨r.id, r.user_id, r.content, r.project, r.memory_type,
      (jsonParse r.metadata).getD (Json.obj []), r.created_at⟩)

/-! ### searchMemories -/

/-- One match returned by `VECTORIZE.query`: the `memoryId` attribute
and the similarity score (scores modelled as integers; only their order
matters here). -/
structure VMatch where
  memoryId : String
  score : Int

/-- Arguments of the `search-memories` tool. -/
structure SearchArgs where
  query : String
  project : Option String
  type : Option String
  limit : Option Nat
  include_relationships : Option Bool

/-- The score map built from the matches (`Map.set` per match, so a
later match with the same id wins), read back with `get(id) || 0`. -/
def scoreOf (vmatches : List VMatch) (id : String) : Int :=
  match vmatches.reverse.find? (fun m => m.memoryId == id) with
  | some m => m.score
  | none => 0

/-- A search result row: the memory row enhanced with its semantic
score and parsed metadata; `related` models the `GROUP_CONCAT` columns
of the `include_relationships` query as the lists of outgoing
relationship targets and kinds. -/
structure Enhanced where
  mem : MemoryRow
  semantic_score : Int
  metadataJ : Json
  related : Option (List String × List String)

/-- Outgoing relationships of a memory, as joined by the
`include_relationships` query. -/
def relatedInfo (db : DB) (id : String) : List String × List String :=
  let rels := db.memory_relationships.filter (fun r => r.from_memory_id == id)
  (rels.map (fun r => r.to_memory_id), rels.map (fun r => r.relationship_type))

/-- Enhance one SQL row: attach the score and parse
`row.metadata || '\x7b\x7d'`; `none` models a thrown `SyntaxError`. -/
def enhanceRow (db : DB) (vmatches : List VMatch) (inclRel : Bool)
    (r : MemoryRow) : Option Enhanced :=
  (jsonParse (if r.metadata == "" then jsonStringify (Json.obj [])
      else r.metadata)).map
    (fun jm => ⟨r, scoreOf vmatches r.id, jm,
      if inclRel then some (relatedInfo db r.id) else none⟩)

/-- Map a fallible function over a list, failing if any element
fails (a thrown exception aborts the whole handler). -/
def optionMapList (f : σ → Option τ) (l : List σ) : Option (List τ) :=
  match l with
  | [] => some []
  | a :: l2 =>
    match f a, optionMapList f l2 with
    | some b, some bs => some (b :: bs)
    | _, _ => none

/-- `Array.prototype.sort` with comparator
`(a, b) => b.semantic_score - a.semantic_score`: a stable sort by
descending score. -/
def sortByScore (l : List Enhanced) : List Enhanced :=
  l.insertionSort (fun a b => b.semantic_score ≤ a.semantic_score)

/-- The three distinct return points of `searchMemories`: the catch
branch, the early `No memories found` return taken when the vector
query yields no matches, and the normal path returning the ranked
rows. -/
inductive SearchResult where
  | err : String → SearchResult
  | noResults : String → SearchResult
  | results : List Enhanced → SearchResult

/-- `searchMemories`: embed the query, query the vector index (its
response is the `matches` argument), return early if it is empty,
resolve the candidate ids against the `memories` table (unresolved ids
simply produce no row), attach scores and parsed metadata, sort by
descending score and truncate to `limit`. -/
def searchMemories (db : DB) (args : SearchArgs) (embedOk : Bool)
    (embedErr : String) (vmatches : List VMatch) : SearchResult :=
  let limit := args.limit.getD 10
  let inclRel := args.include_relationships.getD false
  if embedOk then
    if vmatches.isEmpty then SearchResult.noResults args.query
    else
      let memoryIds := vmatches.map (fun m => m.memoryId)
      let results := db.memories.filter (fun r => memoryIds.contains r.id)
      match optionMapList (enhanceRow db vmatches inclRel) results with
      | some enhanced => SearchResult.results ((sortByScore enhanced).take limit)
      | none => SearchResult.err "❌ Error searching memories: SyntaxError"
  else SearchResult.err ("❌ Error searching memories: " ++ embedErr)

/-! ### createMemoryRelationship -/

/-- Arguments of the `create-memory-relationship` tool. -/
structure RelArgs where
  from_memory_id : String
  to_memory_id : String
  relationship_type : String
  strength : Option ℚ

/-- The not-found response text of `createMemoryRelationship`. -/
def relNotFoundText : String := "❌ One or both memories not found"

/-- The success response text of `createMemoryRelationship`. -/
def relOkText (relationship_type : String) (strength : ℚ)
    (fromContent toContent : String) : String :=
  "🔗 **Relationship created successfully!**\n\n**Type**: " ++
    relationship_type ++ "\n**Strength**: " ++ toString strength ++
    "\n**From**: " ++ fromContent.take 100 ++ "...\n**To**: " ++
    toContent.take 100 ++ "..."

/-- `createMemoryRelationship`: look up both endpoints by id; if either
is missing return the not-found response without writing; otherwise
insert the relationship row. -/
def createMemoryRelationship (db : DB) (args : RelArgs)
    (relationshipId : String) (now : Nat) : DB × String :=
  let strength := args.strength.getD (1 / 2)
  match db.memories.find? (fun r => r.id == args.from_memory_id),
        db.memories.find? (fun r => r.id == args.to_memory_id) with
  | some fromMemory, some toMemory =>
    let row : RelationshipRow := ⟨relationshipId, args.from_memory_id,
      args.to_memory_id, args.relationship_type, strength, now⟩
    (⟨db.memories, db.memory_relationships ++ [row], db.user_sessions⟩,
      relOkText args.relationship_type strength fromMemory.content
        toMemory.content)
  | _, _ => (db, relNotFoundText)

/-- The closed set of relationship kinds declared by the tool schema
`z.enum([...])` in `init`. -/
def relationshipKinds : List String :=
  ["influences", "depends_on", "relates_to", "contradicts", "extends"]

/-- Outcome of a tool invocation at the transport boundary. -/
inductive ToolOutcome where
  | validationError : ToolOutcome
  | response : String → ToolOutcome

/-- The `create-memory-relationship` tool including its argument
schema, as registered in `init`: the MCP server validates the raw
arguments against the declared zod schema (`z.enum` over the closed
kind set, `z.number().min(0).max(1)` for strength) and surfaces a
validation error without invoking the handler when they do not
conform. -/
def createMemoryRelationshipTool (db : DB) (args : RelArgs)
    (relationshipId : String) (now : Nat) : DB × ToolOutcome :=
  let kindOk := relationshipKinds.contains args.relationship_type
  let strengthOk :=
    match args.strength with
    | none => true
    | some s => decide (0 ≤ s) && decide (s ≤ 1)
  if kindOk && strengthOk then
    let r := createMemoryRelationship db args relationshipId now
    (r.1, ToolOutcome.response r.2)
  else (db, ToolOutcome.validationError)

/-! ### switchProject -/

/-- The success response text of `switchProject`. -/
def switchOkText (project : String) : String :=
  "📁 **Switched to project: " ++ project ++
    "**\n\nAll new memories will be stored in this project context."

/-- `switchProject`: `INSERT OR REPLACE` of the single `user_sessions`
row keyed by the owner (the conflicting row is deleted, the fresh row
appended). -/
def switchProject (db : DB) (project : String) (now : Nat) : DB × String :=
  let userId := getUserId
  (⟨db.memories, db.memory_relationships,
    (db.user_sessions.filter (fun s => s.user_id != userId)) ++
      [⟨userId, project, now⟩]⟩,
    switchOkText project)

/-- The `user_sessions` row of an owner. -/
def sessionRowFor (db : DB) (owner : String) : Option SessionRow :=
  db.user_sessions.find? (fun s => s.user_id == owner)

/-! ### Concrete fixtures used by the claim checks -/

/-- A stored row with id `a`, created at time 1, empty metadata. -/
def rowA : MemoryRow :=
  ⟨"a", getUserId, "alpha", "memory-a", "default", "general",
    jsonStringify (Json.obj []), 1, 1, 1⟩

/-- A stored row with id `b`, created at time 2, empty metadata. -/
def rowB : MemoryRow :=
  ⟨"b", getUserId, "beta", "memory-b", "default", "general",
    jsonStringify (Json.obj []), 2, 2, 2⟩

/-- The result ordering asserted by the specification for
`searchMemories`: descending similarity score, ties broken by
most-recent created timestamp first. -/
def claimOrder (a b : Enhanced) : Prop :=
  b.semantic_score < a.semantic_score ∨
    (a.semantic_score = b.semantic_score ∧ b.mem.created_at ≤ a.mem.created_at)

/-! ### Round-trip: the parser inverts the serializer -/

theorem headNotDigit_nil : headNotDigit [] := by
  intro c h
  simp at h

theorem headNotDigit_cons {c : Char} {r : List Char}
    (h : c.isDigit = false) : headNotDigit (c :: r) := by
  intro c' h'
  simp at h'
  exact h' ▸ h

theorem ne_of_isDigit {c c' : Char} (h : c.isDigit = true)
    (h' : c'.isDigit = false) : c ≠ c' := by
  intro heq
  rw [heq, h'] at h
  exact Bool.noConfusion h

theorem digitChar_isDigit {d : Nat} (h : d < 10) :
    (digitChar d).isDigit = true := by
  interval_cases d <;> decide

theorem digitChar_toNat {d : Nat} (h : d < 10) :
    (digitChar d).toNat = 48 + d := by
  interval_cases d <;> decide

theorem natDigits_ne_nil (n : Nat) : natDigits n ≠ [] := by
  rw [natDigits]
  split
  · simp
  · simp

theorem natDigits_all_digit (n : Nat) :
    ∀ c ∈ natDigits n, c.isDigit = true := by
  induction n using Nat.strong_induction_on with
  | _ n ih =>
    rw [natDigits]
    split
    · intro c hc
      simp at hc
      exact hc ▸ digitChar_isDigit (by omega)
    · intro c hc
      rw [List.mem_append] at hc
      rcases hc with hc | hc
      · exact ih (n / 10) (Nat.div_lt_self (by omega) (by omega)) c hc
      · simp at hc
        exact hc ▸ digitChar_isDigit (Nat.mod_lt _ (by omega))

theorem digitsToNat_natDigits (n : Nat) : digitsToNat (natDigits n) = n := by
  induction n using Nat.strong_induction_on with
  | _ n ih =>
    rw [natDigits]
    split
    · rename_i h
      simp [digitsToNat, digitChar_toNat h]
    · rename_i h
      have ih' := ih (n / 10) (Nat.div_lt_self (by omega) (by omega))
      simp only [digitsToNat, List.foldl_append, List.foldl_cons, List.foldl_nil]
      simp only [digitsToNat] at ih'
      rw [ih', digitChar_toNat (Nat.mod_lt _ (by omega))]
      omega

theorem takeDigits_append (ds rest : List Char)
    (h : ∀ c ∈ ds, c.isDigit = true) (h2 : headNotDigit rest) :
    takeDigits (ds ++ rest) = (ds, rest) := by
  induction ds with
  | nil =>
    cases rest with
    | nil => rfl
    | cons c r =>
      have := h2 c (by simp)
      simp [takeDigits, this]
  | cons d ds ih =>
    have hd : d.isDigit = true := h d (by simp)
    have ih' := ih (fun c hc => h c (by simp [hc]))
    simp [takeDigits, hd, ih']

theorem parseNum_intChars (i : Int) (rest : List Char)
    (h : headNotDigit rest) :
    parseNum (intChars i ++ rest) = some (i, rest) := by
  rcases lt_or_le i 0 with hi | hi
  · have : intChars i = '-' :: natDigits i.natAbs := by
      simp [intChars, hi]
    rw [this]
    obtain ⟨d, ds, hds⟩ := List.exists_cons_of_ne_nil (natDigits_ne_nil i.natAbs)
    simp only [List.cons_append, parseNum, if_pos rfl]
    rw [takeDigits_append _ _ (natDigits_all_digit _) h, hds]
    have hv : digitsToNat (d :: ds) = i.natAbs := by
      rw [← hds]; exact digitsToNat_natDigits _
    simp [hv]
    rw [abs_of_neg hi, neg_neg]
  · have : intChars i = natDigits i.natAbs := by
      simp [intChars, not_lt.mpr hi]
    rw [this]
    obtain ⟨d, ds, hds⟩ := List.exists_cons_of_ne_nil (natDigits_ne_nil i.natAbs)
    rw [hds]
    have hd : d.isDigit = true := by
      apply natDigits_all_digit i.natAbs
      rw [hds]; simp
    have hne : d ≠ '-' := ne_of_isDigit hd (by decide)
    simp only [List.cons_append, parseNum, if_neg hne]
    rw [← List.cons_append, ← hds,
      takeDigits_append _ _ (natDigits_all_digit _) h, hds]
    have hv : digitsToNat (d :: ds) = i.natAbs := by
      rw [← hds]; exact digitsToNat_natDigits _
    simp [hv]
    exact hi

theorem string_mk_toList (s : String) : String.mk s.toList = s := rfl

theorem intChars_shape (i : Int) :
    ∃ c cs, intChars i = c :: cs ∧ (c = '-' ∨ c.isDigit = true) := by
  rw [intChars]
  split
  · exact ⟨'-', _, rfl, Or.inl rfl⟩
  · obtain ⟨d, ds, hds⟩ := List.exists_cons_of_ne_nil (natDigits_ne_nil i.natAbs)
    refine ⟨d, ds, hds, Or.inr ?_⟩
    apply natDigits_all_digit i.natAbs
    rw [hds]
    simp

theorem needV_pos (j : Json) : 1 ≤ needV j := by
  cases j <;> simp [needV]

theorem needE_pos (xs : List Json) : 1 ≤ needE xs := by
  cases xs <;> simp [needE]

theorem needM_pos (kvs : List (String × Json)) : 1 ≤ needM kvs := by
  cases kvs with
  | nil => simp [needM]
  | cons m ms => obtain ⟨k, v⟩ := m; simp [needM]

theorem parseStr_esc (s rest : List Char) :
    parseStr (escChars s ++ ('"' :: rest)) = some (s, rest) := by
  induction s with
  | nil =>
    rw [escChars, List.nil_append, parseStr.eq_def]
    simp
  | cons c cs ih =>
    by_cases h1 : c = '"'
    · subst h1
      simp only [escChars, escapeChar]
      simp only [List.cons_append, List.nil_append, List.append_assoc]
      simp only [reduceIte]
      rw [parseStr.eq_def]
      simp [unescapeChar, ih]
    · by_cases h2 : c = '\\'
      · subst h2
        simp only [escChars, escapeChar]
        simp only [List.cons_append, List.nil_append, List.append_assoc]
        simp only [reduceIte]
        rw [parseStr.eq_def]
        simp [unescapeChar, ih]
      · by_cases h3 : c = '\n'
        · subst h3
          simp only [escChars, escapeChar]
          simp only [List.cons_append, List.nil_append, List.append_assoc]
          simp only [reduceIte]
          rw [parseStr.eq_def]
          simp [unescapeChar, ih]
        · by_cases h4 : c = '\t'
          · subst h4
            simp only [escChars, escapeChar]
            simp only [List.cons_append, List.nil_append, List.append_assoc]
            simp only [reduceIte]
            rw [parseStr.eq_def]
            simp [unescapeChar, ih]
          · by_cases h5 : c = '\r'
            · subst h5
              simp only [escChars, escapeChar]
              simp only [List.cons_append, List.nil_append, List.append_assoc]
              simp only [reduceIte]
              rw [parseStr.eq_def]
              simp [unescapeChar, ih]
            · simp only [escChars, escapeChar, if_neg h1, if_neg h2,
                if_neg h3, if_neg h4, if_neg h5, List.cons_append,
                List.nil_append, List.singleton_append, List.append_assoc]
              rw [parseStr.eq_def]
              simp [if_neg h1, if_neg h2, ih]

theorem jsonChars_shape (j : Json) :
    ∃ c cs, jsonChars j = c :: cs ∧ c ≠ ']' ∧ c ≠ ',' ∧ c ≠ '\x7d' := by
  cases j with
  | null => exact ⟨'n', ['u', 'l', 'l'], by simp [jsonChars], by decide,
      by decide, by decide⟩
  | bool b =>
    cases b with
    | true => exact ⟨'t', ['r', 'u', 'e'], by simp [jsonChars], by decide,
        by decide, by decide⟩
    | false => exact ⟨'f', ['a', 'l', 's', 'e'], by simp [jsonChars],
        by decide, by decide, by decide⟩
  | num i =>
    obtain ⟨c, cs, hic, hc⟩ := intChars_shape i
    refine ⟨c, cs, by simp [jsonChars, hic], ?_, ?_, ?_⟩
    · rcases hc with hc | hc
      · subst hc; decide
      · exact ne_of_isDigit hc (by decide)
    · rcases hc with hc | hc
      · subst hc; decide
      · exact ne_of_isDigit hc (by decide)
    · rcases hc with hc | hc
      · subst hc; decide
      · exact ne_of_isDigit hc (by decide)
  | str s => exact ⟨'"', escChars s.toList ++ ['"'], by simp [jsonChars],
      by decide, by decide, by decide⟩
  | arr xs => exact ⟨'[', arrChars xs ++ [']'], by simp [jsonChars],
      by decide, by decide, by decide⟩
  | obj kvs => exact ⟨'\x7b', objChars kvs ++ ['\x7d'], by simp [jsonChars],
      by decide, by decide, by decide⟩

theorem parse_rt (f : Nat) :
    (∀ j rest, needV j ≤ f → headNotDigit rest →
      parseVal f (jsonChars j ++ rest) = some (j, rest)) ∧
    (∀ xs rest, needE xs ≤ f →
      parseElems f (arrChars xs ++ (']' :: rest)) = some (xs, rest)) ∧
    (∀ kvs rest, needM kvs ≤ f →
      parseMembers f (objChars kvs ++ ('\x7d' :: rest)) = some (kvs, rest)) := by
  induction f with
  | zero =>
    refine ⟨fun j rest hj _ => absurd hj (by have := needV_pos j; omega),
      fun xs rest hx => absurd hx (by have := needE_pos xs; omega),
      fun kvs rest hk => absurd hk (by have := needM_pos kvs; omega)⟩
  | succ f ih =>
    obtain ⟨ihV, ihE, ihM⟩ := ih
    refine ⟨?_, ?_, ?_⟩
    · intro j rest hj hrest
      cases j with
      | null =>
        rw [show jsonChars Json.null = ['n', 'u', 'l', 'l'] from by
          simp [jsonChars]]
        rw [parseVal.eq_def]
        simp
      | bool b =>
        cases b with
        | true =>
          rw [show jsonChars (Json.bool true) = ['t', 'r', 'u', 'e'] from by
            simp [jsonChars]]
          rw [parseVal.eq_def]
          simp
        | false =>
          rw [show jsonChars (Json.bool false) = ['f', 'a', 'l', 's', 'e'] from by
            simp [jsonChars]]
          rw [parseVal.eq_def]
          simp
      | num i =>
        obtain ⟨c, cs, hic, hc⟩ := intChars_shape i
        have hne : c ≠ '"' ∧ c ≠ '[' ∧ c ≠ '\x7b' ∧ c ≠ 'n' ∧ c ≠ 't' ∧
            c ≠ 'f' := by
          rcases hc with hc | hc
          · subst hc
            refine ⟨by decide, by decide, by decide, by decide, by decide,
              by decide⟩
          · exact ⟨ne_of_isDigit hc (by decide), ne_of_isDigit hc (by decide),
              ne_of_isDigit hc (by decide), ne_of_isDigit hc (by decide),
              ne_of_isDigit hc (by decide), ne_of_isDigit hc (by decide)⟩
        have hchars : jsonChars (Json.num i) = intChars i := by
          simp [jsonChars]
        rw [hchars, hic, List.cons_append, parseVal.eq_def]
        simp only [if_neg hne.2.2.2.1, if_neg hne.2.2.2.2.1,
          if_neg hne.2.2.2.2.2, if_neg hne.1, if_neg hne.2.1,
          if_neg hne.2.2.1]
        rw [← List.cons_append, ← hic, parseNum_intChars i rest hrest]
      | str s =>
        have hchars : jsonChars (Json.str s) ++ rest =
            '"' :: (escChars s.toList ++ ('"' :: rest)) := by
          simp [jsonChars]
        rw [hchars, parseVal.eq_def]
        simp [parseStr_esc]
      | arr xs =>
        have harr : needE xs ≤ f := by
          have : needV (Json.arr xs) = 1 + needE xs := by simp [needV]
          omega
        have hchars : jsonChars (Json.arr xs) ++ rest =
            '[' :: (arrChars xs ++ (']' :: rest)) := by
          simp [jsonChars]
        rw [hchars, parseVal.eq_def]
        simp [ihE xs rest harr]
      | obj kvs =>
        have hobj : needM kvs ≤ f := by
          have : needV (Json.obj kvs) = 1 + needM kvs := by simp [needV]
          omega
        have hchars : jsonChars (Json.obj kvs) ++ rest =
            '\x7b' :: (objChars kvs ++ ('\x7d' :: rest)) := by
          simp [jsonChars]
        rw [hchars, parseVal.eq_def]
        simp [ihM kvs rest hobj]
    · intro xs rest hx
      cases xs with
      | nil =>
        rw [show arrChars [] = [] from by simp [arrChars], List.nil_append,
          parseElems.eq_def]
        simp
      | cons x xs' =>
        obtain ⟨c, cs, hxc, hc1, hc2, hc3⟩ := jsonChars_shape x
        cases xs' with
        | nil =>
          have hvx : needV x ≤ f := by
            have : needE [x] = 1 + max (needV x) (needE []) := by simp [needE]
            have := needE_pos ([] : List Json)
            omega
          have hchars : arrChars [x] ++ (']' :: rest) =
              c :: (cs ++ (']' :: rest)) := by
            simp [arrChars, hxc]
          rw [hchars, parseElems.eq_def]
          simp only [if_neg hc1]
          have hv := ihV x (']' :: rest) hvx (headNotDigit_cons (by decide))
          rw [hxc] at hv
          simp only [List.cons_append] at hv
          simp [hv]
        | cons y ys =>
          have hvx : needV x ≤ f := by
            have : needE (x :: y :: ys) =
                1 + max (needV x) (needE (y :: ys)) := by simp [needE]
            omega
          have hvy : needE (y :: ys) ≤ f := by
            have : needE (x :: y :: ys) =
                1 + max (needV x) (needE (y :: ys)) := by simp [needE]
            omega
          have hchars : arrChars (x :: y :: ys) ++ (']' :: rest) =
              c :: (cs ++ (',' :: (arrChars (y :: ys) ++ (']' :: rest)))) := by
            simp [arrChars, hxc]
          rw [hchars, parseElems.eq_def]
          simp only [if_neg hc1]
          have hv := ihV x (',' :: (arrChars (y :: ys) ++ (']' :: rest))) hvx
            (headNotDigit_cons (by decide))
          rw [hxc] at hv
          simp only [List.cons_append] at hv
          simp [hv, ihE (y :: ys) rest hvy]
    · intro kvs rest hk
      cases kvs with
      | nil =>
        rw [show objChars [] = [] from by simp [objChars], List.nil_append,
          parseMembers.eq_def]
        simp
      | cons m ms =>
        obtain ⟨k, v⟩ := m
        cases ms with
        | nil =>
          have hvv : needV v ≤ f := by
            have : needM [(k, v)] = 1 + max (needV v) (needM []) := by
              simp [needM]
            omega
          have hchars : objChars [(k, v)] ++ ('\x7d' :: rest) =
              '"' :: (escChars k.toList ++
                ('"' :: ':' :: (jsonChars v ++ ('\x7d' :: rest)))) := by
            simp [objChars]
          rw [hchars, parseMembers.eq_def]
          have hstr : parseStr (escChars k.toList ++
              ('"' :: (':' :: (jsonChars v ++ ('\x7d' :: rest))))) =
              some (k.toList, ':' :: (jsonChars v ++ ('\x7d' :: rest))) :=
            parseStr_esc _ _
          have hv := ihV v ('\x7d' :: rest) hvv (headNotDigit_cons (by decide))
          simp only [String.toList] at hstr
          simp [hstr, hv, string_mk_toList, String.toList]
        | cons m2 ms2 =>
          have hvv : needV v ≤ f := by
            have : needM ((k, v) :: m2 :: ms2) =
                1 + max (needV v) (needM (m2 :: ms2)) := by simp [needM]
            omega
          have hvm : needM (m2 :: ms2) ≤ f := by
            have : needM ((k, v) :: m2 :: ms2) =
                1 + max (needV v) (needM (m2 :: ms2)) := by simp [needM]
            omega
          have hchars : objChars ((k, v) :: m2 :: ms2) ++ ('\x7d' :: rest) =
              '"' :: (escChars k.toList ++
                ('"' :: ':' :: (jsonChars v ++
                  (',' :: (objChars (m2 :: ms2) ++ ('\x7d' :: rest)))))) := by
            simp [objChars]
          rw [hchars, parseMembers.eq_def]
          have hstr := parseStr_esc k.toList
            (':' :: (jsonChars v ++
              (',' :: (objChars (m2 :: ms2) ++ ('\x7d' :: rest)))))
          have hv := ihV v
            (',' :: (objChars (m2 :: ms2) ++ ('\x7d' :: rest))) hvv
            (headNotDigit_cons (by decide))
          simp only [String.toList] at hstr
          simp [hstr, hv, ihM (m2 :: ms2) rest hvm, string_mk_toList,
            String.toList]

theorem json_ind (P : Json → Prop) (hnull : P .null) (hbool : ∀ b, P (.bool b))
    (hnum : ∀ i, P (.num i)) (hstr : ∀ s, P (.str s))
    (harr : ∀ xs, (∀ x ∈ xs, P x) → P (.arr xs))
    (hobj : ∀ kvs, (∀ p ∈ kvs, P p.2) → P (.obj kvs)) : ∀ j, P j := by
  have key : ∀ n j, sizeOf j ≤ n → P j := by
    intro n
    induction n with
    | zero =>
      intro j h
      cases j <;> simp at h
    | succ n ih =>
      intro j h
      cases j with
      | null => exact hnull
      | bool b => exact hbool b
      | num i => exact hnum i
      | str s => exact hstr s
      | arr xs =>
        refine harr xs fun x hx => ih x ?_
        have h1 := List.sizeOf_lt_of_mem hx
        simp at h
        omega
      | obj kvs =>
        refine hobj kvs fun p hp => ih p.2 ?_
        have h1 := List.sizeOf_lt_of_mem hp
        obtain ⟨a, b⟩ := p
        simp at h h1 ⊢
        omega
  exact fun j => key (sizeOf j) j le_rfl

theorem needE_le_len (xs : List Json)
    (h : ∀ x ∈ xs, needV x ≤ (jsonChars x).length + 1) :
    needE xs ≤ (arrChars xs).length + 2 := by
  induction xs with
  | nil => simp [needE, arrChars]
  | cons x xs ih =>
    have hx := h x (by simp)
    cases xs with
    | nil =>
      have : needE [x] = 1 + max (needV x) (needE []) := by simp [needE]
      have h0 : needE ([] : List Json) = 1 := by simp [needE]
      have hlen : arrChars [x] = jsonChars x := by simp [arrChars]
      rw [this, h0, hlen]
      omega
    | cons y ys =>
      have ih' := ih fun z hz => h z (by simp [hz])
      have : needE (x :: y :: ys) = 1 + max (needV x) (needE (y :: ys)) := by
        simp [needE]
      have hlen : arrChars (x :: y :: ys) =
          jsonChars x ++ (',' :: arrChars (y :: ys)) := by simp [arrChars]
      rw [this, hlen]
      simp only [List.length_append, List.length_cons]
      omega

theorem needM_le_len (kvs : List (String × Json))
    (h : ∀ p ∈ kvs, needV p.2 ≤ (jsonChars p.2).length + 1) :
    needM kvs ≤ (objChars kvs).length + 2 := by
  induction kvs with
  | nil => simp [needM, objChars]
  | cons m ms ih =>
    obtain ⟨k, v⟩ := m
    have hv := h (k, v) (by simp)
    cases ms with
    | nil =>
      have : needM [(k, v)] = 1 + max (needV v) (needM []) := by simp [needM]
      have h0 : needM ([] : List (String × Json)) = 1 := by simp [needM]
      have hlen : objChars [(k, v)] =
          '"' :: (escChars k.toList ++ ('"' :: ':' :: jsonChars v)) := by
        simp [objChars]
      rw [this, h0, hlen]
      simp only [List.length_cons, List.length_append]
      simp at hv
      omega
    | cons m2 ms2 =>
      have ih' := ih fun p hp => h p (by simp [hp])
      have : needM ((k, v) :: m2 :: ms2) =
          1 + max (needV v) (needM (m2 :: ms2)) := by simp [needM]
      have hlen : objChars ((k, v) :: m2 :: ms2) =
          ('"' :: (escChars k.toList ++ ('"' :: ':' :: jsonChars v)))
            ++ (',' :: objChars (m2 :: ms2)) := by simp [objChars]
      rw [this, hlen]
      simp only [List.length_append, List.length_cons]
      simp at hv
      omega

theorem needV_le_len : ∀ j, needV j ≤ (jsonChars j).length + 1 := by
  refine json_ind _ ?_ ?_ ?_ ?_ ?_ ?_
  · simp [needV]
  · intro b; cases b <;> simp [needV]
  · intro i; simp [needV]
  · intro s; simp [needV]
  · intro xs hIH
    have hE := needE_le_len xs hIH
    have : needV (Json.arr xs) = 1 + needE xs := by simp [needV]
    have hlen : jsonChars (Json.arr xs) = '[' :: (arrChars xs ++ [']']) := by
      simp [jsonChars]
    rw [this, hlen]
    simp only [List.length_cons, List.length_append]
    omega
  · intro kvs hIH
    have hM := needM_le_len kvs hIH
    have : needV (Json.obj kvs) = 1 + needM kvs := by simp [needV]
    have hlen : jsonChars (Json.obj kvs) =
        '\x7b' :: (objChars kvs ++ ['\x7d']) := by simp [jsonChars]
    rw [this, hlen]
    simp only [List.length_cons, List.length_append]
    omega

/-- The JSON round-trip: parsing a serialized value returns the value.
This is the fidelity fact behind the metadata column round-trip. -/
theorem jsonParse_stringify (j : Json) : jsonParse (jsonStringify j) = some j := by
  have hlen : (jsonStringify j).length = (jsonChars j).length := rfl
  have hb : needV j ≤ (jsonStringify j).length + 1 := by
    rw [hlen]
    have := needV_le_len j
    omega
  have h := (parse_rt ((jsonStringify j).length + 1)).1 j [] hb headNotDigit_nil
  rw [List.append_nil] at h
  have htl : (jsonStringify j).toList = jsonChars j := rfl
  simp only [jsonParse, htl, h]

/-! ### JS object lemmas: spread-last override semantics -/

theorem getKey_setKey_self (l : List (String × Json)) (k : String) (v : Json) :
    getKey (setKey l k v) k = some v := by
  induction l with
  | nil => simp [setKey, getKey]
  | cons p ps ih =>
    rw [setKey]
    by_cases hp : (p.1 == k) = true
    · rw [if_pos hp]
      simp [getKey]
    · have hp' : (p.1 == k) = false := by simpa using hp
      rw [if_neg (by simp [hp'])]
      simp only [getKey, List.find?_cons, hp']
      simpa [getKey] using ih

theorem getKey_setKey_ne (l : List (String × Json)) {k k' : String}
    (v : Json) (h : k ≠ k') :
    getKey (setKey l k' v) k = getKey l k := by
  induction l with
  | nil =>
    simp only [setKey, getKey, List.find?_cons]
    have : (k' == k) = false := by
      simp only [beq_eq_false_iff_ne, ne_eq]
      exact fun hh => h hh.symm
    simp [this, List.find?_nil]
  | cons p ps ih =>
    rw [setKey]
    by_cases hp : (p.1 == k') = true
    · rw [if_pos hp]
      have hpk : p.1 = k' := by simpa using hp
      have hk'k : (k' == k) = false := by
        simp only [beq_eq_false_iff_ne, ne_eq]
        exact fun hh => h hh.symm
      have hpkf : (p.1 == k) = false := by rw [hpk]; exact hk'k
      simp only [getKey, List.find?_cons, hk'k, hpkf]
    · have hp' : (p.1 == k') = false := by simpa using hp
      rw [if_neg (by simp [hp'])]
      by_cases hq : (p.1 == k) = true
      · simp only [getKey, List.find?_cons, hq]
      · have hq' : (p.1 == k) = false := by simpa using hq
        simp only [getKey, List.find?_cons, hq']
        simpa [getKey] using ih

theorem getKey_objExtend_not_mem (base : List (String × Json))
    {ext : List (String × Json)} {k : String}
    (h : ∀ p ∈ ext, p.1 ≠ k) :
    getKey (objExtend base ext) k = getKey base k := by
  induction ext generalizing base with
  | nil => rfl
  | cons p ps ih =>
    simp only [objExtend, List.foldl_cons]
    have htail := ih (setKey base p.1 p.2) (fun q hq => h q (by simp [hq]))
    simp only [objExtend] at htail
    rw [htail]
    exact getKey_setKey_ne base p.2 (fun hh => h p (by simp) hh.symm)

theorem getKey_objExtend_mem (base : List (String × Json))
    {ext : List (String × Json)} {k : String} {v : Json}
    (hnd : (ext.map Prod.fst).Nodup) (hmem : (k, v) ∈ ext) :
    getKey (objExtend base ext) k = some v := by
  induction ext generalizing base with
  | nil => simp at hmem
  | cons p ps ih =>
    simp only [objExtend, List.foldl_cons]
    rcases List.mem_cons.mp hmem with hh | hh
    · subst hh
      have hknotin : ∀ q ∈ ps, q.1 ≠ k := by
        intro q hq heq
        have hmemk : k ∈ ps.map Prod.fst := by
          rw [← heq]
          exact List.mem_map_of_mem _ hq
        have hnotin := (List.nodup_cons.mp hnd).1
        exact absurd hmemk hnotin
      have hrest := getKey_objExtend_not_mem (setKey base k v) hknotin
      simp only [objExtend] at hrest
      rw [hrest]
      exact getKey_setKey_self base k v
    · have hnd' := (List.nodup_cons.mp hnd).2
      have hrec := ih (setKey base p.1 p.2) hnd' hh
      simpa only [objExtend] using hrec

/-! ### Search helper lemmas -/

theorem find?_append_none {α} (p : α → Bool) {l1 : List α} (l2 : List α)
    (h : l1.find? p = none) : (l1 ++ l2).find? p = l2.find? p := by
  induction l1 with
  | nil => rfl
  | cons a l ih =>
    by_cases hpa : p a = true
    · rw [List.find?_cons_of_pos l hpa] at h
      exact absurd h (by simp)
    · rw [List.find?_cons_of_neg l hpa] at h
      rw [List.cons_append, List.find?_cons_of_neg _ hpa]
      exact ih h

theorem sortByScore_sorted (l : List Enhanced) :
    (sortByScore l).Pairwise
      (fun a b => b.semantic_score ≤ a.semantic_score) := by
  haveI : IsTotal Enhanced (fun a b => b.semantic_score ≤ a.semantic_score) :=
    ⟨fun a b => le_total _ _⟩
  haveI : IsTrans Enhanced (fun a b => b.semantic_score ≤ a.semantic_score) :=
    ⟨fun _ _ _ h1 h2 => le_trans h2 h1⟩
  exact List.sorted_insertionSort _ l

theorem sortByScore_perm (l : List Enhanced) :
    List.Perm (sortByScore l) l :=
  List.perm_insertionSort _ l

theorem optionMapList_mem {α β} (f : α → Option β) :
    ∀ {l : List α} {bs : List β}, optionMapList f l = some bs →
      ∀ b ∈ bs, ∃ a ∈ l, f a = some b := by
  intro l
  induction l with
  | nil =>
    intro bs h b hb
    simp only [optionMapList, Option.some.injEq] at h
    subst h
    simp at hb
  | cons a l ih =>
    intro bs h b hb
    rw [optionMapList] at h
    rcases hfa : f a with _ | b0 <;> rw [hfa] at h
    · exact absurd h (by simp)
    · rcases hrec : optionMapList f l with _ | bs0 <;> rw [hrec] at h
      · exact absurd h (by simp)
      · simp only [Option.some.injEq] at h
        subst h
        rcases List.mem_cons.mp hb with hb | hb
        · subst hb
          exact ⟨a, by simp, hfa⟩
        · obtain ⟨a', ha', hfa'⟩ := ih hrec b hb
          exact ⟨a', by simp [ha'], hfa'⟩

/-- The normal-path shape of a `searchMemories` result: whenever the
call returns the `results` constructor, the rows are the sorted,
truncated enhancement of the resolved SQL rows. -/
theorem searchMemories_results_shape (db : DB) (args : SearchArgs)
    (e : String) (vm : List VMatch) (rows : List Enhanced)
    (h : searchMemories db args true e vm = SearchResult.results rows) :
    ∃ enhanced,
      optionMapList (enhanceRow db vm (args.include_relationships.getD false))
        (db.memories.filter
          (fun r => (vm.map (fun m => m.memoryId)).contains r.id)) =
        some enhanced ∧
      rows = (sortByScore enhanced).take (args.limit.getD 10) := by
  simp only [searchMemories, if_true] at h
  by_cases hvm : vm.isEmpty = true
  · rw [if_pos hvm] at h
    exact absurd h (by simp)
  · rw [if_neg hvm] at h
    rcases hopt : optionMapList
        (enhanceRow db vm (args.include_relationships.getD false))
        (db.memories.filter
          (fun r => (vm.map (fun m => m.memoryId)).contains r.id)) with
        _ | enhanced <;> rw [hopt] at h
    · exact absurd h (by simp)
    · simp only [SearchResult.results.injEq] at h
      exact ⟨enhanced, hopt, h.symm⟩

/-! ### Session helper -/

theorem sessionRowFor_switchProject (db : DB) (p : String) (now : Nat) :
    sessionRowFor (switchProject db p now).1 getUserId =
      some ⟨getUserId, p, now⟩ := by
  rw [switchProject, sessionRowFor]
  have hnone : (db.user_sessions.filter
      (fun s => s.user_id != getUserId)).find?
      (fun s => s.user_id == getUserId) = none := by
    rw [List.find?_eq_none]
    intro x hx
    have hmem := List.of_mem_filter hx
    simpa using hmem
  rw [find?_append_none _ _ hnone]
  simp

/-! ### Claims -/

/-- C5: whenever at least one endpoint id of
`createMemoryRelationship` does not resolve to an existing `memories`
row, the call returns the not-found response and the database is
unchanged (no relationship row is written). -/
theorem c5_relationship_not_found (db : DB) (args : RelArgs)
    (relationshipId : String) (now : Nat)
    (h : db.memories.find? (fun r => r.id == args.from_memory_id) = none ∨
         db.memories.find? (fun r => r.id == args.to_memory_id) = none) :
    createMemoryRelationship db args relationshipId now =
      (db, relNotFoundText) := by
  rw [createMemoryRelationship]
  rcases hf : db.memories.find? (fun r => r.id == args.from_memory_id) with
      _ | f <;>
    rcases ht : db.memories.find? (fun r => r.id == args.to_memory_id) with
      _ | t
  · rw [hf, ht]
  · rw [hf, ht]
  · rw [hf, ht]
  · rcases h with h | h
    · rw [hf] at h
      exact absurd h (by simp)
    · rw [ht] at h
      exact absurd h (by simp)

theorem c5_relationship_not_found_witness :
    (([] : List MemoryRow).find?
        (fun r => r.id == "missing-1") = none ∨
      ([] : List MemoryRow).find? (fun r => r.id == "missing-2") = none) ∧
    createMemoryRelationship ⟨[], [], []⟩
        ⟨"missing-1", "missing-2", "relates_to", none⟩ "r1" 0 =
      (⟨[], [], []⟩, relNotFoundText) :=
  ⟨Or.inl rfl,
    c5_relationship_not_found ⟨[], [], []⟩
      ⟨"missing-1", "missing-2", "relates_to", none⟩ "r1" 0 (Or.inl rfl)⟩

/-- C6: a `create-memory-relationship` call whose strength lies outside
[0, 1] or whose kind is outside the closed set declared by the tool
schema is rejected as a validation error by the schema layer, and no
relationship is persisted (the database is returned unchanged). -/
theorem c6_relationship_validation (db : DB) (args : RelArgs)
    (relationshipId : String) (now : Nat)
    (h : args.relationship_type ∉ relationshipKinds ∨
      (∃ s, args.strength = some s ∧ (s < 0 ∨ 1 < s))) :
    createMemoryRelationshipTool db args relationshipId now =
      (db, ToolOutcome.validationError) := by
  rw [createMemoryRelationshipTool]
  have hcond : (relationshipKinds.contains args.relationship_type &&
      match args.strength with
      | none => true
      | some s => decide (0 ≤ s) && decide (s ≤ 1)) = false := by
    rcases h with h | ⟨s, hs, hlt⟩
    · have hk : relationshipKinds.contains args.relationship_type = false := by
        simpa using h
      simp only [hk, Bool.false_and]
    · rw [hs]
      rcases hlt with hlt | hlt
      · have : ¬ (0 ≤ s) := not_le.mpr hlt
        simp [this]
      · have : ¬ (s ≤ 1) := not_le.mpr hlt
        simp [this]
  have hcond' : ¬ ((relationshipKinds.contains args.relationship_type &&
      match args.strength with
      | none => true
      | some s => decide (0 ≤ s) && decide (s ≤ 1)) = true) := by
    rw [hcond]
    simp
  rw [if_neg hcond']

theorem c6_relationship_validation_witness :
    (("relates_to" : String) ∉ relationshipKinds ∨
      (∃ s, (some (2 : ℚ) : Option ℚ) = some s ∧ (s < 0 ∨ 1 < s))) ∧
    createMemoryRelationshipTool ⟨[rowA, rowB], [], []⟩
        ⟨"a", "b", "relates_to", some 2⟩ "r1" 0 =
      (⟨[rowA, rowB], [], []⟩, ToolOutcome.validationError) :=
  ⟨Or.inr ⟨2, rfl, Or.inr (by norm_num)⟩,
    c6_relationship_validation ⟨[rowA, rowB], [], []⟩
      ⟨"a", "b", "relates_to", some 2⟩ "r1" 0
      (Or.inr ⟨2, rfl, Or.inr (by norm_num)⟩)⟩

/-- C8: `switchProject` is idempotent: after switching to the same
non-empty project twice in a row, the `user_sessions` row of the owner,
ignoring the last-active timestamp, is the same as after switching
once. -/
theorem c8_switch_project_idempotent (db : DB) (project : String)
    (now1 now2 : Nat) (hp : project ≠ "") :
    ((sessionRowFor
        (switchProject (switchProject db project now1).1 project now2).1
        getUserId).map (fun s => (s.user_id, s.current_project))) =
      ((sessionRowFor (switchProject db project now1).1 getUserId).map
        (fun s => (s.user_id, s.current_project))) := by
  rw [sessionRowFor_switchProject, sessionRowFor_switchProject]
  simp

theorem c8_switch_project_idempotent_witness :
    ("dev" : String) ≠ "" ∧
    ((sessionRowFor
        (switchProject (switchProject ⟨[], [], []⟩ "dev" 1).1 "dev" 2).1
        getUserId).map (fun s => (s.user_id, s.current_project))) =
      ((sessionRowFor (switchProject ⟨[], [], []⟩ "dev" 1).1 getUserId).map
        (fun s => (s.user_id, s.current_project))) :=
  ⟨by decide, c8_switch_project_idempotent ⟨[], [], []⟩ "dev" 1 2 (by decide)⟩

/-- C9: the session table never influences `addMemory`: two runs on
states agreeing on the `memories` table but with arbitrary
`user_sessions` contents produce the same response, the same new
`memories` table and the same vector index; and when no project
argument is supplied the stored row carries the literal project
`default`, regardless of any session row. -/
theorem c9_session_noninterference (dbA dbB : DB) (vdb : List VectorEntry)
    (args : AddArgs) (memoryId : String) (now : Nat) (ext : ExtCalls)
    (hm : dbA.memories = dbB.memories) :
    (addMemory dbA vdb args memoryId now ext).2.2 =
      (addMemory dbB vdb args memoryId now ext).2.2 ∧
    (addMemory dbA vdb args memoryId now ext).1.memories =
      (addMemory dbB vdb args memoryId now ext).1.memories ∧
    (addMemory dbA vdb args memoryId now ext).2.1 =
      (addMemory dbB vdb args memoryId now ext).2.1 ∧
    (args.project = none → ext.embedOk = true → ext.insertOk = true →
      (addMemory dbA vdb args memoryId now ext).1.memories =
        dbA.memories ++ [⟨memoryId, getUserId, args.content,
          "memory-" ++ memoryId, "default", args.type.getD "general",
          jsonStringify (Json.obj (args.metadata.getD [])),
          now, now, now⟩]) := by
  refine ⟨?_, ?_, ?_, ?_⟩
  · cases he : ext.embedOk <;> cases hi : ext.insertOk <;>
      cases hu : ext.upsertOk <;> simp [addMemory, he, hi, hu, hm]
  · cases he : ext.embedOk <;> cases hi : ext.insertOk <;>
      cases hu : ext.upsertOk <;> simp [addMemory, he, hi, hu, hm]
  · cases he : ext.embedOk <;> cases hi : ext.insertOk <;>
      cases hu : ext.upsertOk <;> simp [addMemory, he, hi, hu, hm]
  · intro hproj he hi
    cases hu : ext.upsertOk <;> simp [addMemory, he, hi, hu, hproj]

theorem c9_session_noninterference_witness :
    ((⟨[], [], [⟨getUserId, "other-project", 9⟩]⟩ : DB).memories =
      (⟨[], [], []⟩ : DB).memories) ∧
    ((none : Option String) = none) ∧
    (addMemory ⟨[], [], [⟨getUserId, "other-project", 9⟩]⟩ []
        ⟨"hi", none, none, none⟩ "m1" 0
        ⟨true, "", [1], true, "", true, ""⟩).2.2 =
      (addMemory ⟨[], [], []⟩ [] ⟨"hi", none, none, none⟩ "m1" 0
        ⟨true, "", [1], true, "", true, ""⟩).2.2 ∧
    (addMemory ⟨[], [], [⟨getUserId, "other-project", 9⟩]⟩ []
        ⟨"hi", none, none, none⟩ "m1" 0
        ⟨true, "", [1], true, "", true, ""⟩).1.memories =
      [⟨"m1", getUserId, "hi", "memory-m1", "default", "general",
        jsonStringify (Json.obj []), 0, 0, 0⟩] := by
  refine ⟨rfl, rfl, ?_, ?_⟩
  · exact (c9_session_noninterference ⟨[], [], [⟨getUserId, "other-project", 9⟩]⟩
      ⟨[], [], []⟩ [] ⟨"hi", none, none, none⟩ "m1" 0
      ⟨true, "", [1], true, "", true, ""⟩ rfl).1
  · have h := (c9_session_noninterference
      ⟨[], [], [⟨getUserId, "other-project", 9⟩]⟩ ⟨[], [], []⟩ []
      ⟨"hi", none, none, none⟩ "m1" 0
      ⟨true, "", [1], true, "", true, ""⟩ rfl).2.2.2 rfl rfl rfl
    simpa using h

/-- C10: in `addMemory` the caller-supplied metadata is spread last
into the vector index entry attributes, so for any of the canonical
keys (`memoryId`, `userId`, `content`, `project`, `type`, `timestamp`)
occurring in the metadata, the entry attribute carries the caller's
metadata value instead of the canonical field value. -/
theorem c10_metadata_overrides_attrs
    (memoryId userId content project type : String) (now : Nat)
    (metadata : List (String × Json)) (k : String) (v : Json)
    (hk : k ∈ ["memoryId", "userId", "content", "project", "type",
      "timestamp"])
    (hnd : (metadata.map Prod.fst).Nodup) (hmem : (k, v) ∈ metadata) :
    getKey (addMemoryAttrs memoryId userId content project type now
      metadata) k = some v := by
  rw [addMemoryAttrs]
  exact getKey_objExtend_mem _ hnd hmem

theorem c10_metadata_overrides_attrs_witness :
    (("userId" : String) ∈ ["memoryId", "userId", "content", "project",
      "type", "timestamp"]) ∧
    (([("userId", Json.str "someone-else")].map Prod.fst).Nodup) ∧
    (("userId", Json.str "someone-else") ∈
      [("userId", Json.str "someone-else")]) ∧
    getKey (addMemoryAttrs "m1" getUserId "c" "default" "general" 7
      [("userId", Json.str "someone-else")]) "userId" =
      some (Json.str "someone-else") :=
  ⟨by simp, by simp, by simp,
    c10_metadata_overrides_attrs "m1" getUserId "c" "default" "general" 7
      [("userId", Json.str "someone-else")] "userId"
      (Json.str "someone-else") (by simp) (by simp) (by simp)⟩

/-! ### getMemory-after-insert helper -/

theorem getMemory_after_insert (l : List MemoryRow)
    (rels : List RelationshipRow) (sess : List SessionRow)
    (row : MemoryRow) (hfresh : ∀ r ∈ l, r.id ≠ row.id) :
    getMemory ⟨l ++ [row], rels, sess⟩ row.id =
      some ⟨row.id, row.user_id, row.content, row.project, row.memory_type,
        (jsonParse row.metadata).getD (Json.obj []), row.created_at⟩ := by
  rw [getMemory]
  have hnone : l.find? (fun r => r.id == row.id) = none := by
    rw [List.find?_eq_none]
    intro x hx
    simpa using hfresh x hx
  have : (l ++ [row]).find? (fun r => r.id == row.id) = some row := by
    rw [find?_append_none _ _ hnone]
    simp
  rw [this]
  rfl

/-- C1 (amended): when the durable SQL insert succeeds but the vector
index upsert fails, `addMemory` returns the same generic error response
shape as a total failure (there is no distinct success-with-warning
outcome), the vector index is left unchanged, and the durable record
remains persisted and retrievable by its id. -/
theorem c1_upsert_failure (db : DB) (vdb : List VectorEntry)
    (args : AddArgs) (memoryId : String) (now : Nat) (ext : ExtCalls)
    (he : ext.embedOk = true) (hi : ext.insertOk = true)
    (hu : ext.upsertOk = false)
    (hfresh : ∀ r ∈ db.memories, r.id ≠ memoryId) :
    (addMemory db vdb args memoryId now ext).2.2 =
      errStoreText ext.upsertErr ∧
    (addMemory db vdb args memoryId now ext).2.1 = vdb ∧
    getMemory (addMemory db vdb args memoryId now ext).1 memoryId =
      some ⟨memoryId, getUserId, args.content, args.project.getD "default",
        args.type.getD "general", Json.obj (args.metadata.getD []), now⟩ := by
  refine ⟨by simp [addMemory, he, hi, hu], by simp [addMemory, he, hi, hu], ?_⟩
  have hdb : (addMemory db vdb args memoryId now ext).1 =
      ⟨db.memories ++ [⟨memoryId, getUserId, args.content,
        "memory-" ++ memoryId, args.project.getD "default",
        args.type.getD "general",
        jsonStringify (Json.obj (args.metadata.getD [])),
        now, now, now⟩], db.memory_relationships, db.user_sessions⟩ := by
    simp [addMemory, he, hi, hu]
  rw [hdb, getMemory_after_insert _ _ _ _ hfresh, jsonParse_stringify]
  rfl

theorem c1_upsert_failure_witness :
    ((⟨true, "", [1], true, "", false, "boom"⟩ : ExtCalls).embedOk = true) ∧
    ((⟨true, "", [1], true, "", false, "boom"⟩ : ExtCalls).insertOk = true) ∧
    ((⟨true, "", [1], true, "", false, "boom"⟩ : ExtCalls).upsertOk = false) ∧
    (addMemory ⟨[], [], []⟩ [] ⟨"hello", none, none, none⟩ "m1" 0
        ⟨true, "", [1], true, "", false, "boom"⟩).2.2 =
      errStoreText "boom" ∧
    getMemory (addMemory ⟨[], [], []⟩ [] ⟨"hello", none, none, none⟩ "m1" 0
        ⟨true, "", [1], true, "", false, "boom"⟩).1 "m1" =
      some ⟨"m1", getUserId, "hello", "default", "general", Json.obj [], 0⟩ := by
  have h := c1_upsert_failure ⟨[], [], []⟩ [] ⟨"hello", none, none, none⟩
    "m1" 0 ⟨true, "", [1], true, "", false, "boom"⟩ rfl rfl rfl (by simp)
  exact ⟨rfl, rfl, rfl, h.1, h.2.2⟩

/-- C1 counterexample: the claim as stated is false.  At a concrete
input where the insert succeeds and the upsert fails, the response is
byte-identical to the response of a run where the durable insert itself
failed with the same message (so it is not distinct from total
failure), and it is not the success response; the record is
nevertheless persisted. -/
theorem c1_counterexample :
    (addMemory ⟨[], [], []⟩ [] ⟨"hello", none, none, none⟩ "m1" 0
        ⟨true, "", [1], true, "", false, "boom"⟩).2.2 =
      (addMemory ⟨[], [], []⟩ [] ⟨"hello", none, none, none⟩ "m1" 0
        ⟨true, "", [1], false, "boom", true, ""⟩).2.2 ∧
    (addMemory ⟨[], [], []⟩ [] ⟨"hello", none, none, none⟩ "m1" 0
        ⟨true, "", [1], true, "", false, "boom"⟩).2.2 ≠
      okStoreText "m1" "default" "general" "hello" ∧
    (addMemory ⟨[], [], []⟩ [] ⟨"hello", none, none, none⟩ "m1" 0
        ⟨true, "", [1], true, "", false, "boom"⟩).1.memories.length = 1 := by
  refine ⟨rfl, ?_, rfl⟩
  intro h
  exact absurd h (by decide)

/-- C3 (amended): `addMemory` performs no emptiness validation on the
content: with empty content and all external calls succeeding it
returns the success response and persists the record like any other. -/
theorem c3_empty_content_stored (db : DB) (vdb : List VectorEntry)
    (args : AddArgs) (memoryId : String) (now : Nat) (ext : ExtCalls)
    (hc : args.content = "") (he : ext.embedOk = true)
    (hi : ext.insertOk = true) (hu : ext.upsertOk = true) :
    (addMemory db vdb args memoryId now ext).2.2 =
      okStoreText memoryId (args.project.getD "default")
        (args.type.getD "general") "" ∧
    (addMemory db vdb args memoryId now ext).1.memories =
      db.memories ++ [⟨memoryId, getUserId, "", "memory-" ++ memoryId,
        args.project.getD "default", args.type.getD "general",
        jsonStringify (Json.obj (args.metadata.getD [])),
        now, now, now⟩] := by
  constructor
  · simp [addMemory, he, hi, hu, hc]
  · simp [addMemory, he, hi, hu, hc]

theorem c3_empty_content_stored_witness :
    ((⟨"", none, none, none⟩ : AddArgs).content = "") ∧
    (addMemory ⟨[], [], []⟩ [] ⟨"", none, none, none⟩ "m3" 0
        ⟨true, "", [1], true, "", true, ""⟩).2.2 =
      okStoreText "m3" "default" "general" "" ∧
    (addMemory ⟨[], [], []⟩ [] ⟨"", none, none, none⟩ "m3" 0
        ⟨true, "", [1], true, "", true, ""⟩).1.memories =
      [⟨"m3", getUserId, "", "memory-m3", "default", "general",
        jsonStringify (Json.obj []), 0, 0, 0⟩] := by
  have h := c3_empty_content_stored ⟨[], [], []⟩ [] ⟨"", none, none, none⟩
    "m3" 0 ⟨true, "", [1], true, "", true, ""⟩ rfl rfl rfl rfl
  exact ⟨rfl, h.1, h.2⟩

/-- C3 counterexample: the claim as stated is false.  A concrete
`addMemory` call with empty content succeeds (no `ValidationError`) and
the record is persisted. -/
theorem c3_counterexample :
    (addMemory ⟨[], [], []⟩ [] ⟨"", none, none, none⟩ "m3" 0
        ⟨true, "", [1], true, "", true, ""⟩).2.2 =
      okStoreText "m3" "default" "general" "" ∧
    (addMemory ⟨[], [], []⟩ [] ⟨"", none, none, none⟩ "m3" 0
        ⟨true, "", [1], true, "", true, ""⟩).2.2 ≠
      errStoreText "boom" ∧
    (addMemory ⟨[], [], []⟩ [] ⟨"", none, none, none⟩ "m3" 0
        ⟨true, "", [1], true, "", true, ""⟩).1.memories.length = 1 := by
  refine ⟨rfl, ?_, rfl⟩
  intro h
  exact absurd h (by decide)

/-- C7: for valid inputs (non-empty content, fresh id, all external
calls succeeding), `createMemory` followed by `getMemory` on the
returned id yields a record whose content, project, type and metadata
exactly equal the inputs; the metadata goes through
`JSON.stringify`/`JSON.parse` and comes back equal by the round-trip
theorem. -/
theorem c7_create_get_roundtrip (db : DB) (vdb : List VectorEntry)
    (args : AddArgs) (memoryId : String) (now : Nat) (ext : ExtCalls)
    (hc : args.content ≠ "") (he : ext.embedOk = true)
    (hi : ext.insertOk = true) (hu : ext.upsertOk = true)
    (hfresh : ∀ r ∈ db.memories, r.id ≠ memoryId) :
    getMemory (addMemory db vdb args memoryId now ext).1 memoryId =
      some ⟨memoryId, getUserId, args.content, args.project.getD "default",
        args.type.getD "general", Json.obj (args.metadata.getD []), now⟩ := by
  have hdb : (addMemory db vdb args memoryId now ext).1 =
      ⟨db.memories ++ [⟨memoryId, getUserId, args.content,
        "memory-" ++ memoryId, args.project.getD "default",
        args.type.getD "general",
        jsonStringify (Json.obj (args.metadata.getD [])),
        now, now, now⟩], db.memory_relationships, db.user_sessions⟩ := by
    simp [addMemory, he, hi, hu]
  rw [hdb, getMemory_after_insert _ _ _ _ hfresh, jsonParse_stringify]
  rfl

theorem c7_create_get_roundtrip_witness :
    ((⟨"hello world", none, some "preference",
        some [("priority", Json.str "high"), ("count", Json.num 2)]⟩ :
        AddArgs).content ≠ "") ∧
    getMemory (addMemory ⟨[], [], []⟩ []
        ⟨"hello world", none, some "preference",
          some [("priority", Json.str "high"), ("count", Json.num 2)]⟩
        "m7" 4 ⟨true, "", [1], true, "", true, ""⟩).1 "m7" =
      some ⟨"m7", getUserId, "hello world", "default", "preference",
        Json.obj [("priority", Json.str "high"), ("count", Json.num 2)], 4⟩ :=
  ⟨by decide,
    c7_create_get_roundtrip ⟨[], [], []⟩ []
      ⟨"hello world", none, some "preference",
        some [("priority", Json.str "high"), ("count", Json.num 2)]⟩
      "m7" 4 ⟨true, "", [1], true, "", true, ""⟩ (by decide) rfl rfl rfl
      (by simp)⟩

/-! ### enhanceRow helper -/

theorem enhanceRow_mem_eq (db : DB) (vm : List VMatch) (incl : Bool)
    (r : MemoryRow) (x : Enhanced)
    (h : enhanceRow db vm incl r = some x) : x.mem = r := by
  rw [enhanceRow] at h
  rcases hp : jsonParse (if r.metadata == "" then jsonStringify (Json.obj [])
      else r.metadata) with _ | jm <;> rw [hp] at h
  · exact absurd h (by simp)
  · injection h with h
    rw [← h]

/-- C2 (amended): every `searchMemories` result list is sorted by
descending semantic score (a stable sort: ties keep the SQL row order,
they are not re-ordered by creation time), and its length never
exceeds the requested limit (default 10). -/
theorem c2_sorted_and_limited (db : DB) (args : SearchArgs) (e : String)
    (vm : List VMatch) (rows : List Enhanced)
    (h : searchMemories db args true e vm = SearchResult.results rows) :
    rows.Pairwise (fun a b => b.semantic_score ≤ a.semantic_score) ∧
    rows.length ≤ args.limit.getD 10 := by
  obtain ⟨enhanced, hopt, hrows⟩ :=
    searchMemories_results_shape db args e vm rows h
  subst hrows
  constructor
  · exact (sortByScore_sorted enhanced).sublist (List.take_sublist _ _)
  · rw [List.length_take]
    exact min_le_left _ _

theorem c2_sorted_and_limited_witness :
    searchMemories ⟨[rowA, rowB], [], []⟩ ⟨"q", none, none, none, none⟩
        true "" [⟨"a", 7⟩, ⟨"b", 5⟩] =
      SearchResult.results
        [⟨rowA, 7, Json.obj [], none⟩, ⟨rowB, 5, Json.obj [], none⟩] ∧
    List.Pairwise (fun a b => b.semantic_score ≤ a.semantic_score)
      [(⟨rowA, 7, Json.obj [], none⟩ : Enhanced),
        ⟨rowB, 5, Json.obj [], none⟩] ∧
    ([(⟨rowA, 7, Json.obj [], none⟩ : Enhanced),
        ⟨rowB, 5, Json.obj [], none⟩] : List Enhanced).length ≤ 10 := by
  have h := c2_sorted_and_limited ⟨[rowA, rowB], [], []⟩
    ⟨"q", none, none, none, none⟩ "" [⟨"a", 7⟩, ⟨"b", 5⟩]
    [⟨rowA, 7, Json.obj [], none⟩, ⟨rowB, 5, Json.obj [], none⟩] rfl
  exact ⟨rfl, h.1, h.2⟩

/-- C2 counterexample: the claimed tie-break is false.  Two stored
memories with equal similarity scores, created at times 1 and 2, come
back in storage order (older first), not most-recent-first, so the
result list violates the claimed ordering relation. -/
theorem c2_counterexample :
    searchMemories ⟨[rowA, rowB], [], []⟩ ⟨"q", none, none, none, none⟩
        true "" [⟨"a", 5⟩, ⟨"b", 5⟩] =
      SearchResult.results
        [⟨rowA, 5, Json.obj [], none⟩, ⟨rowB, 5, Json.obj [], none⟩] ∧
    ¬ List.Pairwise claimOrder
        [(⟨rowA, 5, Json.obj [], none⟩ : Enhanced),
          ⟨rowB, 5, Json.obj [], none⟩] := by
  constructor
  · rfl
  · intro h
    have h1 := (List.pairwise_cons.mp h).1 ⟨rowB, 5, Json.obj [], none⟩
      (by simp)
    rcases h1 with h1 | ⟨h2, h3⟩
    · exact absurd h1 (by decide)
    · revert h3
      decide

/-- C4 (amended): candidate ids from the vector index that do not
resolve in the `memories` table are silently dropped (every returned
row comes from a stored record; no error is raised for unresolved
ids), but the distinct no-results outcome is produced only when the
vector index returned zero matches: when it returned candidates and
none resolved, the call returns an empty `results` success instead. -/
theorem c4_unresolved_candidates (db : DB) (args : SearchArgs)
    (e : String) (vm : List VMatch) :
    (vm ≠ [] →
      db.memories.filter
        (fun r => (vm.map (fun m => m.memoryId)).contains r.id) = [] →
      searchMemories db args true e vm = SearchResult.results []) ∧
    (∀ rows, searchMemories db args true e vm = SearchResult.results rows →
      ∀ x ∈ rows, x.mem ∈ db.memories) := by
  constructor
  · intro hvm hres
    have hvm' : vm.isEmpty = false := by
      cases vm with
      | nil => exact absurd rfl hvm
      | cons a l => rfl
    simp only [searchMemories, if_true, hvm', Bool.false_eq_true,
      if_false, hres]
    have hnil : optionMapList
        (enhanceRow db vm (args.include_relationships.getD false))
        ([] : List MemoryRow) = some [] := rfl
    rw [hnil]
    simp [sortByScore, List.insertionSort]
  · intro rows h x hx
    obtain ⟨enhanced, hopt, hrows⟩ :=
      searchMemories_results_shape db args e vm rows h
    subst hrows
    have hx1 : x ∈ sortByScore enhanced :=
      List.mem_of_mem_take hx
    have hx2 : x ∈ enhanced := (sortByScore_perm enhanced).subset hx1
    obtain ⟨a, ha, hfa⟩ := optionMapList_mem _ hopt x hx2
    have hmem := List.mem_of_mem_filter ha
    rw [enhanceRow_mem_eq db vm _ a x hfa]
    exact hmem

theorem c4_unresolved_candidates_witness :
    (([⟨"ghost", 3⟩] : List VMatch) ≠ []) ∧
    ((⟨[rowA], [], []⟩ : DB).memories.filter
      (fun r => (([⟨"ghost", 3⟩] : List VMatch).map
        (fun m => m.memoryId)).contains r.id) = []) ∧
    searchMemories ⟨[rowA], [], []⟩ ⟨"q", none, none, none, none⟩ true ""
      [⟨"ghost", 3⟩] = SearchResult.results [] := by
  refine ⟨by simp, by rfl, ?_⟩
  exact (c4_unresolved_candidates ⟨[rowA], [], []⟩
    ⟨"q", none, none, none, none⟩ "" [⟨"ghost", 3⟩]).1 (by simp) (by rfl)

/-- C4 counterexample: the claim as stated is false.  With one vector
candidate that resolves to no stored record, the resolved set is empty
yet the call reports an empty `results` success, not the distinct
no-results outcome. -/
theorem c4_counterexample :
    searchMemories ⟨[], [], []⟩ ⟨"q", none, none, none, none⟩ true ""
        [⟨"ghost", 3⟩] = SearchResult.results [] ∧
    SearchResult.results [] ≠ SearchResult.noResults "q" := by
  exact ⟨rfl, fun h => SearchResult.noConfusion h⟩
